import Mathlib

/-!
Verification of the LC-3 virtual machine implemented in `src/index.ts`.

The embedding follows the TypeScript source line by line.  Machine words live
in a `Uint16Array` in the source, so register and memory cells are `Fin 65536`
and every store coerces through JavaScript's ToUint16 (`toU16` below).
JavaScript numbers that flow between reads and writes are modelled as `Int`
(sign extension produces genuinely negative numbers in the source), and the
result of indexing a typed array, which can be `undefined` for an
out-of-range index, is modelled as `Option U16`:

* reading `memory[a]` with `a` outside `[0, 65536)` yields `undefined`
  (`none` here); no wrapping occurs;
* writing `memory[a] = v` with `a` outside `[0, 65536)` is dropped by the
  typed array (writes through an `undefined` index create an expando
  property that no numeric read ever observes; we model them as no-ops);
* assigning `undefined` to a `Uint16Array` cell stores 0
  (ToNumber(undefined) = NaN, ToUint16(NaN) = 0).

Host interaction is made explicit: `input` is the stream of key codes the
blocking `keyIn` call hands to `getChar` (`charCodeAt(0)`; an exhausted
stream behaves like the falsy NaN/0 case), and `output` is the list of bytes
committed to stdout.  `putBuf` passes its words through `Buffer.from`, which
truncates each entry to its low 8 bits; the subsequent utf8 decode is
host-side display and not modelled.  The interactive quit branch of
`getChar` (`keyInYN`) is modelled as the host declining to quit, in which
case the function returns the character code unconditionally, exactly as the
source does.
-/

namespace LC3

/-- Machine words: the cells of the `Uint16Array`s `memory` and `registers`. -/
abbrev U16 := Fin 65536

/-- JavaScript ToUint16: the coercion applied by every `Uint16Array` store. -/
def toU16 (i : Int) : U16 := ⟨(i % 65536).toNat, by omega⟩

/-- Assigning a typed-array read result to a `Uint16Array` cell:
`undefined` goes through NaN to 0, an in-range word is kept. -/
def jsAssign : Option U16 → Int
  | some u => u.val
  | none => 0

/-- Reading a typed-array result as the operand of a bitwise shift
(`instr >> 12`): `undefined` becomes 0 via ToInt32(NaN). -/
def jsWord : Option U16 → Nat
  | some u => u.val
  | none => 0

/-- The machine state: the two `Uint16Array`s, the `running` flag, and the
host adapter's observable state (pending key codes in, bytes out). -/
structure Machine where
  regs : Fin 10 → U16
  memory : U16 → U16
  input : List Nat
  output : List Nat
  running : Bool

/-- Register index `R_PC` (8). -/
def rPC : Fin 10 := ⟨8, by omega⟩

/-- Register index `R_COND` (9). -/
def rCOND : Fin 10 := ⟨9, by omega⟩

/-- Register index `R_R0` (0). -/
def rR0 : Fin 10 := ⟨0, by omega⟩

/-- Register index `R_R7` (7). -/
def rR7 : Fin 10 := ⟨7, by omega⟩

/-- `registers[r] = v`: the store coerces through ToUint16. -/
def setReg (m : Machine) (r : Fin 10) (v : Int) : Machine :=
  { m with regs := Function.update m.regs r (toU16 v) }

/-- Indexed read `memory[a]` of the `Uint16Array`: an index in [0, 65536)
yields the cell, anything else yields `undefined` (`none`).  The in-range
test matches on the integer's constructor (nonnegative and below the
length) rather than comparing against literals, which is the same
condition stated in a form that keeps symbolic addresses inert. -/
def memGet (m : Machine) (a : Int) : Option U16 :=
  match a with
  | .ofNat n => if h : n < 65536 then some (m.memory ⟨n, h⟩) else none
  | .negSucc _ => none

/-- `memWrite(address, val)` from the source, with the `Uint16Array` store
semantics: stores to addresses in [0, 65536) update the cell with the
ToUint16-coerced value, all others are dropped. -/
def memWrite (m : Machine) (address : Int) (val : Int) : Machine :=
  match address with
  | .ofNat n =>
    if h : n < 65536 then
      { m with memory := Function.update m.memory ⟨n, h⟩ (toU16 val) }
    else m
  | .negSucc _ => m

/-- `getChar()` from the source: a blocking `keyIn` read returning
`charCodeAt(0)` of the key.  An exhausted stream returns 0, matching the
falsy NaN that `charCodeAt` produces on an empty string.  The interactive
quit prompt is modelled as declined, after which the source falls through
to returning the character code. -/
def getChar (m : Machine) : Nat × Machine :=
  match m.input with
  | [] => (0, m)
  | c :: rest => (c, { m with input := rest })

/-- `MR_KBSR` (0xFE00), the keyboard status register address. -/
def MR_KBSR : Nat := 0xFE00

/-- `MR_KBDR` (0xFE02), the keyboard data register address. -/
def MR_KBDR : Nat := 0xFE02

/-- `memRead(address)` from the source: a read of KBSR polls the host and
latches the result into KBSR/KBDR before the indexed read; every other
address is read directly. -/
def memRead (m : Machine) (address : Int) : Option U16 × Machine :=
  if address = (MR_KBSR : Int) then
    let (c, m1) := getChar m
    let m2 :=
      if c ≠ 0 then
        memWrite (memWrite m1 (MR_KBSR : Int) 0x8000) (MR_KBDR : Int) (c : Int)
      else
        memWrite m1 (MR_KBSR : Int) 0
    (memGet m2 address, m2)
  else
    (memGet m address, m)

/-- `signExtend(x, bitCount)` from the source: mask to the low `bitCount`
bits, then `(x ^ m) - m`, which is negative for a set sign bit. -/
def signExtend (x : Nat) (bitCount : Nat) : Int :=
  let m : Nat := 1 <<< (bitCount - 1)
  let x1 : Nat := x &&& ((1 <<< bitCount) - 1)
  ((x1 ^^^ m : Nat) : Int) - (m : Int)

/-- `updateFlags(r)` from the source: COND gets ZRO (2), NEG (4) or POS (1)
from the current value of register `r`. -/
def updateFlags (m : Machine) (r : Fin 10) : Machine :=
  if (m.regs r).val = 0 then setReg m rCOND 2
  else if (m.regs r).val &&& 0x8000 ≠ 0 then setReg m rCOND 4
  else setReg m rCOND 1

/-- Destination register field `(instr >> 9) & 0x7`, as an index into the
ten-entry register file. -/
def dstReg (instr : Nat) : Fin 10 :=
  ⟨(instr >>> 9) &&& 0x7, lt_of_le_of_lt Nat.and_le_right (by omega)⟩

/-- Source register field `(instr >> 6) & 0x7`. -/
def srcReg (instr : Nat) : Fin 10 :=
  ⟨(instr >>> 6) &&& 0x7, lt_of_le_of_lt Nat.and_le_right (by omega)⟩

/-- Second operand register field `instr & 0x7`. -/
def sr2Reg (instr : Nat) : Fin 10 :=
  ⟨instr &&& 0x7, lt_of_le_of_lt Nat.and_le_right (by omega)⟩

/-- `add(instr)` from the source. -/
def add (m : Machine) (instr : Nat) : Machine :=
  let r0 := dstReg instr
  let r1 := srcReg instr
  let immFlag := (instr >>> 5) &&& 0x1
  let m1 :=
    if immFlag ≠ 0 then
      let imm5 := signExtend (instr &&& 0x1F) 5
      setReg m r0 (((m.regs r1).val : Int) + imm5)
    else
      let r2 := sr2Reg instr
      setReg m r0 (((m.regs r1).val : Int) + ((m.regs r2).val : Int))
  updateFlags m1 r0

/-- `bitwiseAnd(instr)` from the source; `&` acts on 32-bit two's
complement, which `Int.land` reproduces for these operand ranges. -/
def bitwiseAnd (m : Machine) (instr : Nat) : Machine :=
  let r0 := dstReg instr
  let r1 := srcReg instr
  let immFlag := (instr >>> 5) &&& 0x1
  let m1 :=
    if immFlag ≠ 0 then
      let imm5 := signExtend (instr &&& 0x1F) 5
      setReg m r0 (Int.land ((m.regs r1).val : Int) imm5)
    else
      let r2 := sr2Reg instr
      setReg m r0 (Int.land ((m.regs r1).val : Int) ((m.regs r2).val : Int))
  updateFlags m1 r0

/-- `bitwiseNot(instr)` from the source: JavaScript `~v` on a 16-bit value
is ToInt32 bitwise complement, i.e. `-v - 1`. -/
def bitwiseNot (m : Machine) (instr : Nat) : Machine :=
  let r0 := dstReg instr
  let r1 := srcReg instr
  let m1 := setReg m r0 (-(((m.regs r1).val : Int)) - 1)
  updateFlags m1 r0

/-- `branch(instr)` from the source. -/
def branch (m : Machine) (instr : Nat) : Machine :=
  let pcOffset := signExtend (instr &&& 0x1ff) 9
  let condFlag := (instr >>> 9) &&& 0x7
  if condFlag &&& (m.regs rCOND).val ≠ 0 then
    setReg m rPC (((m.regs rPC).val : Int) + pcOffset)
  else m

/-- `jump(instr)` from the source (also RET). -/
def jump (m : Machine) (instr : Nat) : Machine :=
  let r1 := srcReg instr
  setReg m rPC ((m.regs r1).val : Int)

/-- `jumpRegister(instr)` from the source (JSR / JSRR). -/
def jumpRegister (m : Machine) (instr : Nat) : Machine :=
  let r1 := srcReg instr
  let longPCOffset := signExtend (instr &&& 0x7ff) 11
  let longFlag := (instr >>> 11) &&& 0x1
  let m1 := setReg m rR7 ((m.regs rPC).val : Int)
  if longFlag ≠ 0 then
    setReg m1 rPC (((m1.regs rPC).val : Int) + longPCOffset)
  else
    setReg m1 rPC ((m1.regs r1).val : Int)

/-- `load(instr)` from the source (LD). -/
def load (m : Machine) (instr : Nat) : Machine :=
  let r0 := dstReg instr
  let pcOffset := signExtend (instr &&& 0x1ff) 9
  let (v, m1) := memRead m (((m.regs rPC).val : Int) + pcOffset)
  updateFlags (setReg m1 r0 (jsAssign v)) r0

/-- `loadIndirect(instr)` from the source (LDI).  When the inner read is
out of range the outer `memRead(undefined)` compares `undefined` with KBSR
(false) and indexes the array with `undefined`, yielding `undefined` with
no state change; that is the `none` branch. -/
def loadIndirect (m : Machine) (instr : Nat) : Machine :=
  let r0 := dstReg instr
  let pcOffset := signExtend (instr &&& 0x1ff) 9
  let (p, m1) := memRead m (((m.regs rPC).val : Int) + pcOffset)
  let (v, m2) :=
    match p with
    | some u => memRead m1 (u.val : Int)
    | none => ((none : Option U16), m1)
  updateFlags (setReg m2 r0 (jsAssign v)) r0

/-- `loadRegister(instr)` from the source (LDR). -/
def loadRegister (m : Machine) (instr : Nat) : Machine :=
  let r0 := dstReg instr
  let r1 := srcReg instr
  let offset := signExtend (instr &&& 0x3F) 6
  let (v, m1) := memRead m (((m.regs r1).val : Int) + offset)
  updateFlags (setReg m1 r0 (jsAssign v)) r0

/-- `loadEffectiveAddress(instr)` from the source (LEA). -/
def loadEffectiveAddress (m : Machine) (instr : Nat) : Machine :=
  let r0 := dstReg instr
  let pcOffset := signExtend (instr &&& 0x1ff) 9
  let m1 := setReg m r0 (((m.regs rPC).val : Int) + pcOffset)
  updateFlags m1 r0

/-- `store(instr)` from the source (ST). -/
def store (m : Machine) (instr : Nat) : Machine :=
  let r0 := dstReg instr
  let pcOffset := signExtend (instr &&& 0x1ff) 9
  memWrite m (((m.regs rPC).val : Int) + pcOffset) ((m.regs r0).val : Int)

/-- `storeIndirect(instr)` from the source (STI).  An out-of-range pointer
read makes the outer write `memory[undefined] = v`, an expando property no
numeric read observes; that is the `none` no-op branch. -/
def storeIndirect (m : Machine) (instr : Nat) : Machine :=
  let r0 := dstReg instr
  let pcOffset := signExtend (instr &&& 0x1ff) 9
  let (p, m1) := memRead m (((m.regs rPC).val : Int) + pcOffset)
  match p with
  | some u => memWrite m1 (u.val : Int) ((m1.regs r0).val : Int)
  | none => m1

/-- `storeRegister(instr)` from the source (STR). -/
def storeRegister (m : Machine) (instr : Nat) : Machine :=
  let r0 := dstReg instr
  let r1 := srcReg instr
  let offset := signExtend (instr &&& 0x3F) 6
  memWrite m (((m.regs r1).val : Int) + offset) ((m.regs r0).val : Int)

/-- `putBuf(data)` from the source: `Buffer.from` truncates every entry to
its low 8 bits before the bytes reach stdout. -/
def putBuf (m : Machine) (data : List Nat) : Machine :=
  { m with output := m.output ++ data.map (· % 256) }

/-- `console.log(msg)`: the message's character codes plus a newline are
committed to stdout. -/
def consoleLog (m : Machine) (msg : List Nat) : Machine :=
  { m with output := m.output ++ msg ++ [10] }

/-- Character codes of the TRAP_IN prompt string. -/
def inPrompt : List Nat := "Enter a character: ".toList.map Char.toNat

/-- Character codes of the HALT notice. -/
def haltMsg : List Nat := "HALT".toList.map Char.toNat

/-- The PUTS scan loop, `while (memory[addr] !== 0) buf.push(memory[addr])`.
`addr` is a plain JavaScript number and keeps incrementing past the end of
the array, where `memory[addr]` is `undefined`; `undefined !== 0` holds, so
only a zero word stops the loop.  The pushed `undefined` (modelled as 0)
can never reach the result: from an out-of-range index every later index is
also out of range, so that run never terminates.  `fuel` bounds the
unrolling; `none` means the loop did not finish within `fuel` iterations. -/
def scanPuts (m : Machine) : Nat → Nat → Option (List Nat)
  | 0, _ => none
  | fuel + 1, addr =>
    match memGet m (addr : Int) with
    | some v =>
      if v.val = 0 then some []
      else (scanPuts m fuel (addr + 1)).map (v.val :: ·)
    | none => (scanPuts m fuel (addr + 1)).map (0 :: ·)

/-- The PUTSP scan loop: low byte first, then the high byte if nonzero.
An out-of-range `memory[addr]` is `undefined`: the condition holds,
`undefined & 0xFF` is 0 (pushed) and `undefined >> 8` is 0 (not pushed);
as for `scanPuts`, that run never terminates so the pushes are unobservable. -/
def scanPutsp (m : Machine) : Nat → Nat → Option (List Nat)
  | 0, _ => none
  | fuel + 1, addr =>
    match memGet m (addr : Int) with
    | some v =>
      if v.val = 0 then some []
      else
        let char1 := v.val &&& 0xFF
        let char2 := v.val >>> 8
        let pair := if char2 ≠ 0 then [char1, char2] else [char1]
        (scanPutsp m fuel (addr + 1)).map (pair ++ ·)
    | none => (scanPutsp m fuel (addr + 1)).map ([0] ++ ·)

/-- `trapHandler(instr)` from the source.  The switch has no default, so an
unknown vector falls through with no effect.  `none` reports that a PUTS or
PUTSP scan did not terminate within `fuel` steps. -/
def trapHandler (fuel : Nat) (m : Machine) (instr : Nat) : Option Machine :=
  let vec := instr &&& 0xFF
  if vec = 0x20 then
    let (c, m1) := getChar m
    some (setReg m1 rR0 (c : Int))
  else if vec = 0x21 then
    some (putBuf m [(m.regs rR0).val])
  else if vec = 0x22 then
    match scanPuts m fuel (m.regs rR0).val with
    | some buf => some (putBuf m buf)
    | none => none
  else if vec = 0x23 then
    let m1 := consoleLog m inPrompt
    let (c, m2) := getChar m1
    some (setReg m2 rR0 (c : Int))
  else if vec = 0x24 then
    match scanPutsp m fuel (m.regs rR0).val with
    | some buf => some (putBuf m buf)
    | none => none
  else if vec = 0x25 then
    some { consoleLog m haltMsg with running := false }
  else some m

/-- Outcome of one iteration of the fetch-decode-execute loop:
a successor state, the fatal `abort()` on a reserved opcode, or a trap
scan that did not finish within the supplied fuel. -/
inductive StepRes where
  | next (m : Machine)
  | abort
  | fuelOut

/-- One iteration of the `while (running)` loop in `main`: fetch through
`memRead`, post-increment PC, dispatch on the high 4 bits.  The fetch
address comes from the PC register and is always in range, so the
`undefined`-to-0 coercion in `jsWord` is never exercised. -/
def step (fuel : Nat) (m : Machine) : StepRes :=
  let (o, m1) := memRead m ((m.regs rPC).val : Int)
  let instr := jsWord o
  let m2 := setReg m1 rPC (((m1.regs rPC).val : Int) + 1)
  let op := instr >>> 12
  if op = 1 then .next (add m2 instr)
  else if op = 5 then .next (bitwiseAnd m2 instr)
  else if op = 9 then .next (bitwiseNot m2 instr)
  else if op = 0 then .next (branch m2 instr)
  else if op = 12 then .next (jump m2 instr)
  else if op = 4 then .next (jumpRegister m2 instr)
  else if op = 2 then .next (load m2 instr)
  else if op = 10 then .next (loadIndirect m2 instr)
  else if op = 6 then .next (loadRegister m2 instr)
  else if op = 14 then .next (loadEffectiveAddress m2 instr)
  else if op = 3 then .next (store m2 instr)
  else if op = 11 then .next (storeIndirect m2 instr)
  else if op = 7 then .next (storeRegister m2 instr)
  else if op = 15 then
    match trapHandler fuel m2 instr with
    | some m3 => .next m3
    | none => .fuelOut
  else .abort

/-- `image.readUInt16BE(offset)`: Node throws `ERR_OUT_OF_RANGE` unless two
bytes starting at `offset` lie inside the buffer. -/
def readUInt16BE (image : List Nat) (offset : Nat) : Except Unit Nat :=
  if offset + 2 ≤ image.length then
    .ok (image.getD offset 0 * 256 + image.getD (offset + 1) 0)
  else .error ()

/-- The `while ((pos + 1) * 2 < image.length)` loop of `readImage`:
place the big-endian word at byte offset `(pos + 1) * 2` into
`memory[origin + pos]` and advance. -/
def loadLoop (image : List Nat) (origin : Nat) (m : Machine) (pos : Nat) :
    Except Unit Machine :=
  if h : (pos + 1) * 2 < image.length then
    match readUInt16BE image ((pos + 1) * 2) with
    | .ok w => loadLoop image origin (memWrite m ((origin : Int) + (pos : Int)) (w : Int)) (pos + 1)
    | .error e => .error e
  else .ok m
termination_by image.length - pos
decreasing_by omega

/-- `readImage` from the source: read the big-endian origin at offset 0,
then run the copy loop. -/
def readImage (image : List Nat) (m : Machine) : Except Unit Machine :=
  match readUInt16BE image 0 with
  | .ok origin => loadLoop image origin m 0
  | .error e => .error e

/-! Specification-side definitions used to state the claims. -/

/-- COND value `c` correctly classifies result value `v`: POS (1) for a
strictly positive signed value, ZRO (2) for zero, NEG (4) for a set bit 15. -/
def condMatches (c v : U16) : Prop :=
  (c.val = 2 ∧ v.val = 0) ∨ (c.val = 4 ∧ 32768 ≤ v.val) ∨
    (c.val = 1 ∧ 0 < v.val ∧ v.val < 32768)

/-- The word stored at numeric address `a`, 0 outside the address space. -/
def memAt (m : Machine) (a : Nat) : Nat :=
  if h : a < 65536 then (m.memory ⟨a, h⟩).val else 0

/-- Big-endian byte encoding of one machine word. -/
def encodeWord (w : U16) : List Nat := [w.val / 256, w.val % 256]

/-- Big-endian byte encoding of a word sequence. -/
def encodeWords : List U16 → List Nat
  | [] => []
  | w :: t => encodeWord w ++ encodeWords t

/-- Write `n` words of `ws`, starting at word index `pos`, to addresses
`O + pos`, `O + pos + 1`, …: the reference effect of the loader's copy
loop. -/
def placeFrom (m : Machine) (O : Nat) (ws : List U16) (pos : Nat) : Nat → Machine
  | 0 => m
  | n + 1 =>
    placeFrom (memWrite m ((O : Int) + (pos : Int)) (((ws.getD pos 0).val : Nat) : Int))
      O ws (pos + 1) n

/-- The boot machine: zero registers, zero memory, no pending input. -/
def zeroMachine : Machine :=
  { regs := fun _ => 0, memory := fun _ => 0, input := [], output := [], running := true }

/-- Machine exhibiting the unwrapped address computation: PC = 0, the word
at address 0 is `LD R0, #-2` (0x21FE) and the word at 0xFFFF is 5. -/
def c1Machine : Machine :=
  { zeroMachine with
    memory := fun a =>
      if a.val = 0 then ⟨0x21FE, by decide⟩
      else if a.val = 65535 then ⟨5, by decide⟩ else 0 }

/-- Machine with PC = 0x3000 and `LEA R1, #5` (0xE205) everywhere. -/
def leaMachine : Machine :=
  { zeroMachine with
    regs := fun r => if r = rPC then ⟨0x3000, by decide⟩ else 0,
    memory := fun _ => ⟨0xE205, by decide⟩ }

/-- Machine with R0 = 0x4000 and the string "Hi!" (zero-terminated, one
character per word) at 0x4000. -/
def putsMachine : Machine :=
  { zeroMachine with
    regs := fun r => if r = rR0 then ⟨0x4000, by decide⟩ else 0,
    memory := fun a =>
      if a.val = 0x4000 then ⟨72, by decide⟩
      else if a.val = 0x4001 then ⟨105, by decide⟩
      else if a.val = 0x4002 then ⟨33, by decide⟩ else 0 }

/-- Machine with one pending input character, code 65. -/
def ioMachine : Machine :=
  { zeroMachine with input := [65] }

/-! Bit-level helper lemmas for the sign-extension claims. -/

/-- High bits all clear bound an unsigned value from above. -/
theorem lt_pow_of_bits_false (k : Nat) :
    ∀ v L, v < 2^(L+k) → (∀ j, L ≤ j → j < L+k → v.testBit j = false) → v < 2^L := by
  induction k with
  | zero => intro v L hv _; simpa using hv
  | succ k ih =>
    intro v L hv h
    have hb := h (L+k) (Nat.le_add_right _ _) (by omega)
    rw [Nat.testBit_to_div_mod] at hb
    simp only [decide_eq_false_iff_not] at hb
    have h2 : v / 2^(L+k) < 2 := by
      apply Nat.div_lt_of_lt_mul
      rw [← pow_succ]
      exact hv
    have h0 : v / 2^(L+k) = 0 := by
      generalize hq : v / 2^(L+k) = q at hb h2
      omega
    have hlt : v < 2^(L+k) := (Nat.div_eq_zero_iff (Nat.two_pow_pos _)).mp h0
    exact ih v L hlt (fun j h1 h2 => h j h1 (by omega))

/-- High bits all set bound an unsigned value from below. -/
theorem le_of_bits_true (k : Nat) :
    ∀ v L, v < 2^(L+k) → (∀ j, L ≤ j → j < L+k → v.testBit j = true) → 2^(L+k) - 2^L ≤ v := by
  induction k with
  | zero => intro v L _ _; simp
  | succ k ih =>
    intro v L hv h
    have hb := h (L+k) (Nat.le_add_right _ _) (by omega)
    rw [Nat.testBit_to_div_mod] at hb
    simp only [decide_eq_true_eq] at hb
    have hge : 2^(L+k) ≤ v := by
      rcases Nat.lt_or_ge v (2^(L+k)) with hc | hc
      · rw [Nat.div_eq_of_lt hc] at hb; omega
      · exact hc
    have hv' : v % 2^(L+k) < 2^(L+k) := Nat.mod_lt _ (Nat.two_pow_pos _)
    have hbits : ∀ j, L ≤ j → j < L + k → (v % 2^(L+k)).testBit j = true := by
      intro j h1 h2
      rw [Nat.testBit_mod_two_pow]
      simp [h2]
      exact h j h1 (by omega)
    have ihh := ih (v % 2^(L+k)) L hv' hbits
    have hdecomp := Nat.div_add_mod v (2^(L+k))
    have hq : 1 ≤ v / 2^(L+k) := (Nat.one_le_div_iff (Nat.two_pow_pos _)).mpr hge
    have hmul : 2^(L+k) * 1 ≤ 2^(L+k) * (v / 2^(L+k)) :=
      Nat.mul_le_mul_left _ hq
    have hC : (2:Nat)^(L+(k+1)) = 2 * 2^(L+k) := by
      rw [show L+(k+1) = (L+k)+1 by omega, pow_succ]; ring
    omega

/-- Bit `N-1` of a value, read off the value's residue modulo `2^N`. -/
theorem testBit_pred_iff (x N : Nat) (hN : 1 ≤ N) :
    (x.testBit (N-1) = true ↔ 2^(N-1) ≤ x % 2^N) := by
  have hsplit : (2:Nat)^N = 2^(N-1) * 2 := by
    rw [← pow_succ]; congr 1; omega
  have hkey : x % 2^N / 2^(N-1) = x / 2^(N-1) % 2 := by
    rw [hsplit, Nat.mod_mul_right_div_self]
  have hlt : x % 2^N / 2^(N-1) < 2 := by
    apply Nat.div_lt_of_lt_mul
    rw [← hsplit]
    exact Nat.mod_lt _ (Nat.two_pow_pos _)
  rw [Nat.testBit_to_div_mod]
  constructor
  · intro h
    simp only [decide_eq_true_eq] at h
    have : x % 2^N / 2^(N-1) = 1 := by rw [hkey]; exact h
    exact (Nat.one_le_div_iff (Nat.two_pow_pos _)).mp (by omega)
  · intro h
    have h1 : 1 ≤ x % 2^N / 2^(N-1) := (Nat.one_le_div_iff (Nat.two_pow_pos _)).mpr h
    have : x / 2^(N-1) % 2 = 1 := by omega
    simp [this]

/-- A value in the top `2^j`-aligned slice of the 16-bit range has bit `j`
set. -/
theorem testBit_true_of_near_top {val j : Nat} (h1 : 2^16 - 2^j ≤ val)
    (h2 : val < 2^16) (hj : j < 16) : val.testBit j = true := by
  have hE : (2:Nat)^16 = 2^j * 2^(16-j) := by
    rw [← pow_add]; congr 1; omega
  have hlow : (2^(16-j) - 1) * 2^j ≤ val := by
    rw [Nat.sub_mul, one_mul, mul_comm]
    omega
  have hup : val < 2^j * 2^(16-j) := by rw [← hE]; exact h2
  have hdivge : 2^(16-j) - 1 ≤ val / 2^j := Nat.le_div_iff_mul_le (Nat.two_pow_pos _) |>.mpr hlow
  have hdivlt : val / 2^j < 2^(16-j) := Nat.div_lt_of_lt_mul hup
  have hdiv : val / 2^j = 2^(16-j) - 1 := by omega
  have hpos : 1 ≤ 16 - j := by omega
  have heven : (2:Nat)^(16-j) = 2 * 2^(16-j-1) := by
    rw [← pow_succ']; congr 1; omega
  rw [Nat.testBit_to_div_mod, hdiv]
  simp only [decide_eq_true_eq]
  omega

/-- Reading the definition of `toU16`. -/
theorem toU16_val (i : Int) : (toU16 i).val = (i % 65536).toNat := rfl

/-- Xor with a power of two above a value adds that power. -/
theorem xor_two_pow_of_lt {y n : Nat} (h : y < 2^n) : y ^^^ 2^n = y + 2^n := by
  apply Nat.eq_of_testBit_eq
  intro j
  have hm := Nat.testBit_mul_pow_two_add 1 h j
  rw [show (2:Nat)^n * 1 + y = y + 2^n by ring] at hm
  rw [hm]
  rcases Nat.lt_or_ge j n with hj | hj
  · have h1 : Nat.testBit (2^n) j = false := by
      rw [Nat.testBit_two_pow]; simp; omega
    simp [Nat.testBit_xor, h1, hj]
  · have h1 : Nat.testBit y j = false :=
      Nat.testBit_lt_two_pow (lt_of_lt_of_le h (Nat.pow_le_pow_right (by omega) hj))
    have h2 : ¬ (j < n) := by omega
    simp [Nat.testBit_xor, h1, h2]
    rw [show (1:Nat) = 2^0 by rfl, Nat.testBit_two_pow, Nat.testBit_two_pow]
    apply decide_eq_decide.mpr
    omega

/-- `signExtend` branches on the sign bit of the masked field: the result
is the field itself or the field minus `2^N`. -/
theorem signExtend_eq (x N : Nat) (hN : 0 < N) :
    signExtend x N =
      if x % 2^N < 2^(N-1) then ((x % 2^N : Nat) : Int)
      else ((x % 2^N : Nat) : Int) - 2^N := by
  unfold signExtend
  simp only [Nat.shiftLeft_eq, one_mul, Nat.and_pow_two_sub_one_eq_mod]
  set y := x % 2^N with hy
  have hylt : y < 2^N := Nat.mod_lt _ (Nat.two_pow_pos N)
  have hsplit : (2:Nat)^N = 2^(N-1) * 2 := by
    rw [← pow_succ]; congr 1; omega
  rcases Nat.lt_or_ge y (2^(N-1)) with hc | hc
  · rw [if_pos hc, xor_two_pow_of_lt hc]
    push_cast
    ring
  · rw [if_neg (by omega)]
    have hstep : y - 2^(N-1) < 2^(N-1) := by omega
    have hx1 : (y - 2^(N-1)) ^^^ 2^(N-1) = (y - 2^(N-1)) + 2^(N-1) := xor_two_pow_of_lt hstep
    have hy2 : y = y - 2^(N-1) + 2^(N-1) := by omega
    have hxor : y ^^^ 2^(N-1) = y - 2^(N-1) := by
      conv_lhs => rw [hy2, ← hx1]
      rw [Nat.xor_cancel_right]
    rw [hxor]
    have hcast : ((y - 2^(N-1) : Nat) : Int) = (y : Int) - ((2^(N-1) : Nat) : Int) :=
      Nat.cast_sub hc
    have hsplitI : ((2:Int))^N = 2^(N-1) * 2 := by exact_mod_cast hsplit
    rw [hcast, hsplitI]
    push_cast
    ring

/-- The 16-bit word stored for a sign-extended field. -/
theorem toU16_signExtend (x N : Nat) (hN1 : 1 ≤ N) (hN2 : N ≤ 16) :
    (toU16 (signExtend x N)).val =
      if x % 2^N < 2^(N-1) then x % 2^N else x % 2^N + (65536 - 2^N) := by
  have hylt : x % 2^N < 2^N := Nat.mod_lt _ (Nat.two_pow_pos N)
  have hNle : (2:Nat)^N ≤ 65536 := by
    calc (2:Nat)^N ≤ 2^16 := Nat.pow_le_pow_right (by omega) hN2
    _ = 65536 := by norm_num
  have hpow : (((2:Nat)^N : Nat) : Int) = (2:Int)^N := by push_cast; ring
  rw [signExtend_eq x N (by omega), toU16_val]
  rw [← hpow]
  rcases Nat.lt_or_ge (x % 2^N) (2^(N-1)) with hc | hc
  · rw [if_pos hc, if_pos hc]
    generalize (2:Nat)^N = D at *
    omega
  · rw [if_neg (by omega), if_neg (by omega)]
    generalize (2:Nat)^N = D at *
    omega

/-- Round trip: a 16-bit word whose high bits replicate bit `N-1` is
reconstructed by sign-extending its low `N` bits. -/
theorem signExtend_roundTrip (N : Nat) (hN1 : 1 ≤ N) (hN2 : N ≤ 16) (v : U16)
    (hv : ∀ j, N ≤ j → j ≤ 15 → v.val.testBit j = v.val.testBit (N-1)) :
    toU16 (signExtend (v.val % 2^N) N) = v := by
  have hlt : v.val < 2^16 := by
    have := v.isLt
    norm_num
  apply Fin.ext
  rw [toU16_signExtend _ N hN1 hN2]
  have hmm : v.val % 2^N % 2^N = v.val % 2^N := Nat.mod_mod_of_dvd _ dvd_rfl
  rw [hmm]
  have hP : (2:Nat)^(N-1) ≤ 2^N := Nat.pow_le_pow_right (by omega) (by omega)
  cases hbv : v.val.testBit (N-1) with
  | false =>
    have hbits : ∀ j, N-1 ≤ j → j < (N-1) + (17-N) → v.val.testBit j = false := by
      intro j h1 h2
      rcases Nat.eq_or_lt_of_le h1 with he | h3
      · rw [← he]; exact hbv
      · rw [hv j (by omega) (by omega)]; exact hbv
    have hA := lt_pow_of_bits_false (17-N) v.val (N-1)
      (by rw [show (N-1)+(17-N) = 16 by omega]; exact hlt) hbits
    have hxmod : v.val % 2^N = v.val := Nat.mod_eq_of_lt (lt_of_lt_of_le hA hP)
    rw [hxmod, if_pos hA]
  | true =>
    have hbits : ∀ j, N-1 ≤ j → j < (N-1) + (17-N) → v.val.testBit j = true := by
      intro j h1 h2
      rcases Nat.eq_or_lt_of_le h1 with he | h3
      · rw [← he]; exact hbv
      · rw [hv j (by omega) (by omega)]; exact hbv
    have hB := le_of_bits_true (17-N) v.val (N-1)
      (by rw [show (N-1)+(17-N) = 16 by omega]; exact hlt) hbits
    rw [show (N-1)+(17-N) = 16 by omega] at hB
    have hcond : 2^(N-1) ≤ v.val % 2^N := (testBit_pred_iff v.val N hN1).mp hbv
    rw [if_neg (by omega)]
    have hNle : (2:Nat)^N ≤ 2^16 := Nat.pow_le_pow_right (by omega) hN2
    have hlow : (2^(16-N) - 1) * 2^N = 2^16 - 2^N := by
      rw [Nat.sub_mul, one_mul, ← pow_add]
      congr 2
      omega
    have hdivlt : v.val / 2^N < 2^(16-N) := by
      apply Nat.div_lt_of_lt_mul
      rw [← pow_add, show N + (16-N) = 16 by omega]
      exact hlt
    have hdivge : 2^(16-N) - 1 ≤ v.val / 2^N := by
      rw [Nat.le_div_iff_mul_le (Nat.two_pow_pos _), hlow]
      omega
    have hdecomp := Nat.div_add_mod v.val (2^N)
    have hq : v.val / 2^N = 2^(16-N) - 1 := by omega
    rw [hq] at hdecomp
    rw [mul_comm] at hlow
    rw [hlow] at hdecomp
    have h16 : (2:Nat)^16 = 65536 := by norm_num
    rw [h16] at hdecomp
    omega

/-- Each high bit of the stored sign-extension result equals bit `N-1` of
the extended field. -/
theorem toU16_signExtend_testBit (x N j : Nat) (hN1 : 1 ≤ N) (hN2 : N ≤ 16)
    (hj1 : N ≤ j) (hj2 : j ≤ 15) :
    (toU16 (signExtend x N)).val.testBit j = x.testBit (N-1) := by
  rw [toU16_signExtend x N hN1 hN2]
  have hylt : x % 2^N < 2^N := Nat.mod_lt _ (Nat.two_pow_pos N)
  have hPj : (2:Nat)^(N-1) ≤ 2^j := Nat.pow_le_pow_right (by omega) (by omega)
  have hNle : (2:Nat)^N ≤ 2^16 := Nat.pow_le_pow_right (by omega) hN2
  have h16 : (2:Nat)^16 = 65536 := by norm_num
  rcases Nat.lt_or_ge (x % 2^N) (2^(N-1)) with hc | hc
  · rw [if_pos hc]
    cases hbv : x.testBit (N-1) with
    | false => exact Nat.testBit_lt_two_pow (lt_of_lt_of_le hc hPj)
    | true =>
      exfalso
      have := (testBit_pred_iff x N hN1).mp hbv
      omega
  · rw [if_neg (by omega)]
    cases hbv : x.testBit (N-1) with
    | true =>
      have hsplit : (2:Nat)^N = 2^(N-1) * 2 := by
        rw [← pow_succ]; congr 1; omega
      have hsub : 65536 - 2^j ≤ 65536 - 2^(N-1) := Nat.sub_le_sub_left hPj 65536
      rw [h16] at hNle
      apply testBit_true_of_near_top
      · rw [h16]; omega
      · rw [h16]; omega
      · omega
    | false =>
      exfalso
      have h1 := (testBit_pred_iff x N hN1).mpr hc
      rw [hbv] at h1
      exact Bool.false_ne_true h1

/-- C4: for every N in {5,6,9,11}, sign-extending the low N bits of a
16-bit value whose bits N..15 all equal its bit N-1 returns the value
itself; and for any field x, every bit N..15 of the stored result equals
bit N-1 of x (all 1 when it is set, all 0 otherwise). -/
theorem C4_signExtend_spec :
    ∀ N, N ∈ ([5, 6, 9, 11] : List Nat) →
      (∀ v : U16, (∀ j, N ≤ j → j ≤ 15 → v.val.testBit j = v.val.testBit (N-1)) →
        toU16 (signExtend (v.val % 2^N) N) = v) ∧
      (∀ x j : Nat, N ≤ j → j ≤ 15 →
        (toU16 (signExtend x N)).val.testBit j = x.testBit (N-1)) := by
  intro N hN
  have hN' : N = 5 ∨ N = 6 ∨ N = 9 ∨ N = 11 := by simpa using hN
  have hN1 : 1 ≤ N := by omega
  have hN2 : N ≤ 16 := by omega
  exact ⟨fun v hv => signExtend_roundTrip N hN1 hN2 v hv,
    fun x j h1 h2 => toU16_signExtend_testBit x N j hN1 hN2 h1 h2⟩

/-- Witness for C4 at N = 5, v = 0 and x = 31, j = 10. -/
theorem C4_signExtend_spec_witness :
    toU16 (signExtend ((0 : U16).val % 2^5) 5) = (0 : U16) ∧
      (toU16 (signExtend 31 5)).val.testBit 10 = (31 : Nat).testBit 4 := by
  constructor
  · exact (C4_signExtend_spec 5 (by decide)).1 0 (fun j h1 h2 => by simp)
  · exact (C4_signExtend_spec 5 (by decide)).2 31 10 (by omega) (by omega)

/-! State-access helper lemmas. -/

/-- `setReg` at the written index. -/
theorem setReg_regs_self (m : Machine) (r : Fin 10) (v : Int) :
    (setReg m r v).regs r = toU16 v := by
  simp [setReg]

/-- `setReg` at any other index. -/
theorem setReg_regs_ne (m : Machine) (r : Fin 10) (v : Int) (s : Fin 10)
    (h : s ≠ r) : (setReg m r v).regs s = m.regs s := by
  simp [setReg, Function.update_noteq h]

/-- `setReg` only touches the register file. -/
theorem setReg_memory (m : Machine) (r : Fin 10) (v : Int) :
    (setReg m r v).memory = m.memory := rfl

/-- `memGet` of a nonnegative (cast) address, in branch form. -/
theorem memGet_natCast (m : Machine) (n : Nat) :
    memGet m ((n : Nat) : Int) =
      if h : n < 65536 then some (m.memory ⟨n, h⟩) else none := rfl

/-- `memWrite` at a nonnegative (cast) address, in branch form. -/
theorem memWrite_natCast (m : Machine) (n : Nat) (v : Int) :
    memWrite m ((n : Nat) : Int) v =
      if h : n < 65536 then
        { m with memory := Function.update m.memory ⟨n, h⟩ (toU16 v) }
      else m := rfl

/-- `memWrite` only touches memory. -/
theorem memWrite_regs (m : Machine) (a v : Int) : (memWrite m a v).regs = m.regs := by
  cases a with
  | ofNat n =>
    rw [show (Int.ofNat n) = ((n : Nat) : Int) from rfl, memWrite_natCast]
    split <;> rfl
  | negSucc k => rfl

/-- `memWrite` leaves the input stream alone. -/
theorem memWrite_input (m : Machine) (a v : Int) : (memWrite m a v).input = m.input := by
  cases a with
  | ofNat n =>
    rw [show (Int.ofNat n) = ((n : Nat) : Int) from rfl, memWrite_natCast]
    split <;> rfl
  | negSucc k => rfl

/-- `memWrite` leaves the output alone. -/
theorem memWrite_output (m : Machine) (a v : Int) : (memWrite m a v).output = m.output := by
  cases a with
  | ofNat n =>
    rw [show (Int.ofNat n) = ((n : Nat) : Int) from rfl, memWrite_natCast]
    split <;> rfl
  | negSucc k => rfl

/-- `getChar` only consumes input. -/
theorem getChar_regs (m : Machine) : (getChar m).2.regs = m.regs := by
  unfold getChar
  cases m.input <;> rfl

/-- `getChar` leaves memory alone. -/
theorem getChar_memory (m : Machine) : (getChar m).2.memory = m.memory := by
  unfold getChar
  cases m.input <;> rfl

/-- `memRead` never touches the register file. -/
theorem memRead_regs (m : Machine) (a : Int) : (memRead m a).2.regs = m.regs := by
  unfold memRead
  split
  · simp only []
    split <;> simp [memWrite_regs, getChar_regs]
  · rfl

/-- The sign bit test used by `updateFlags` reads the numeric order. -/
theorem u16_and_sign_iff (v : U16) : v.val &&& 0x8000 ≠ 0 ↔ 32768 ≤ v.val := by
  have hmod : v.val % 2^16 = v.val := Nat.mod_eq_of_lt (by have := v.isLt; norm_num)
  have hb := testBit_pred_iff v.val 16 (by omega)
  rw [hmod] at hb
  rw [show (0x8000 : Nat) = 2^15 from rfl, Nat.and_two_pow]
  cases hbv : v.val.testBit 15 with
  | false =>
    simp only [hbv, Bool.toNat_false, zero_mul, ne_eq, not_true_eq_false, false_iff]
    intro hc
    have := hb.mpr hc
    rw [hbv] at this
    exact Bool.false_ne_true this
  | true =>
    simp only [hbv, Bool.toNat_true, one_mul, ne_eq]
    constructor
    · intro _
      exact hb.mp hbv
    · intro _
      positivity

/-- `updateFlags` writes a COND flag that classifies the register value,
and leaves the register itself in place. -/
theorem updateFlags_spec (m : Machine) (r : Fin 10) (h : r ≠ rCOND) :
    condMatches ((updateFlags m r).regs rCOND) ((updateFlags m r).regs r) := by
  unfold updateFlags
  have hval := (m.regs r).isLt
  by_cases h0 : (m.regs r).val = 0
  · rw [if_pos h0]
    left
    rw [setReg_regs_self, setReg_regs_ne _ _ _ _ h]
    exact ⟨rfl, h0⟩
  · rw [if_neg h0]
    by_cases hs : (m.regs r).val &&& 0x8000 ≠ 0
    · rw [if_pos hs]
      right; left
      rw [setReg_regs_self, setReg_regs_ne _ _ _ _ h]
      exact ⟨rfl, (u16_and_sign_iff _).mp hs⟩
    · rw [if_neg hs]
      right; right
      rw [setReg_regs_self, setReg_regs_ne _ _ _ _ h]
      refine ⟨rfl, by omega, ?_⟩
      have := (u16_and_sign_iff (m.regs r)).not.mp hs
      omega

/-- The destination register field never denotes COND. -/
theorem dstReg_ne_rCOND (instr : Nat) : dstReg instr ≠ rCOND := by
  apply Fin.ne_of_val_ne
  have : (instr >>> 9) &&& 0x7 ≤ 0x7 := Nat.and_le_right
  simp only [dstReg, rCOND]
  omega

/-- C5: after each flag-setting instruction (ADD, AND, NOT, LD, LDI, LDR,
LEA), COND holds exactly one of 1 (POS: result strictly positive as
signed), 2 (ZRO: result zero) or 4 (NEG: bit 15 of the result set),
matching the destination register's final value, for every machine state
and instruction word. -/
theorem C5_flag_setting_onehot (m : Machine) (instr : Nat) :
    condMatches ((add m instr).regs rCOND) ((add m instr).regs (dstReg instr)) ∧
    condMatches ((bitwiseAnd m instr).regs rCOND)
      ((bitwiseAnd m instr).regs (dstReg instr)) ∧
    condMatches ((bitwiseNot m instr).regs rCOND)
      ((bitwiseNot m instr).regs (dstReg instr)) ∧
    condMatches ((load m instr).regs rCOND) ((load m instr).regs (dstReg instr)) ∧
    condMatches ((loadIndirect m instr).regs rCOND)
      ((loadIndirect m instr).regs (dstReg instr)) ∧
    condMatches ((loadRegister m instr).regs rCOND)
      ((loadRegister m instr).regs (dstReg instr)) ∧
    condMatches ((loadEffectiveAddress m instr).regs rCOND)
      ((loadEffectiveAddress m instr).regs (dstReg instr)) :=
  ⟨updateFlags_spec _ _ (dstReg_ne_rCOND instr),
    updateFlags_spec _ _ (dstReg_ne_rCOND instr),
    updateFlags_spec _ _ (dstReg_ne_rCOND instr),
    updateFlags_spec _ _ (dstReg_ne_rCOND instr),
    updateFlags_spec _ _ (dstReg_ne_rCOND instr),
    updateFlags_spec _ _ (dstReg_ne_rCOND instr),
    updateFlags_spec _ _ (dstReg_ne_rCOND instr)⟩

/-- The KBSR cell as a memory index. -/
def kbsrA : U16 := ⟨0xFE00, by decide⟩

/-- The KBDR cell as a memory index. -/
def kbdrA : U16 := ⟨0xFE02, by decide⟩

/-- `memGet` at an in-range address reads the cell. -/
theorem memGet_in_range (m : Machine) (a : U16) :
    memGet m (a.val : Int) = some (m.memory a) := by
  rw [memGet_natCast, dif_pos a.isLt]

/-- `memWrite` at an in-range address updates that cell to the coerced
value. -/
theorem memWrite_memory_at {m : Machine} {a : Nat} (ha : a < 65536) (v : Int) :
    (memWrite m ((a : Nat) : Int) v).memory ⟨a, ha⟩ = toU16 v := by
  rw [memWrite_natCast, dif_pos ha]
  exact Function.update_same _ _ _

/-- `memWrite` leaves every other cell alone. -/
theorem memWrite_memory_ne {m : Machine} (aa v : Int) (b : U16)
    (hb : (b.val : Int) ≠ aa) : (memWrite m aa v).memory b = m.memory b := by
  cases aa with
  | ofNat n =>
    rw [show (Int.ofNat n) = ((n : Nat) : Int) from rfl, memWrite_natCast]
    split
    next h =>
      apply Function.update_noteq
      intro hEq
      apply hb
      rw [hEq]
      rfl
    next h => rfl
  | negSucc k => rfl

/-- `memRead` away from KBSR is the plain indexed read. -/
theorem memRead_other (m : Machine) (aa : Int)
    (hne : aa ≠ ((MR_KBSR : Nat) : Int)) : memRead m aa = (memGet m aa, m) := by
  unfold memRead
  rw [if_neg hne]

/-- `memRead` at KBSR, unfolded once. -/
theorem memRead_kbsr_unfold (m : Machine) :
    memRead m ((kbsrA.val : Nat) : Int) =
      ((memGet (if (getChar m).1 ≠ 0 then
          memWrite (memWrite (getChar m).2 ((MR_KBSR : Nat) : Int) 0x8000)
            ((MR_KBDR : Nat) : Int) ((getChar m).1 : Int)
        else memWrite (getChar m).2 ((MR_KBSR : Nat) : Int) 0)
          ((kbsrA.val : Nat) : Int)),
       (if (getChar m).1 ≠ 0 then
          memWrite (memWrite (getChar m).2 ((MR_KBSR : Nat) : Int) 0x8000)
            ((MR_KBDR : Nat) : Int) ((getChar m).1 : Int)
        else memWrite (getChar m).2 ((MR_KBSR : Nat) : Int) 0)) := rfl

/-- C6: a read of any address other than KBSR returns the memory cell and
changes nothing (in particular reading KBDR consumes no input); a read of
KBSR polls the host: with a character c available it stores 0x8000 at KBSR
and c (ToUint16-coerced; c itself when it is a byte) at KBDR, otherwise it
stores 0 at KBSR, and in both cases it returns the updated KBSR word and
leaves all registers unchanged. -/
theorem C6_memRead_spec (m : Machine) (a : U16) :
    (a.val ≠ MR_KBSR → memRead m (a.val : Int) = (some (m.memory a), m)) ∧
    (a.val = MR_KBSR →
      ((getChar m).1 ≠ 0 →
        (memRead m (a.val : Int)).2.memory kbsrA = ⟨0x8000, by decide⟩ ∧
        (memRead m (a.val : Int)).2.memory kbdrA = toU16 ((getChar m).1) ∧
        ((getChar m).1 < 256 →
          ((memRead m (a.val : Int)).2.memory kbdrA).val = (getChar m).1)) ∧
      ((getChar m).1 = 0 →
        (memRead m (a.val : Int)).2.memory kbsrA = ⟨0, by decide⟩) ∧
      (memRead m (a.val : Int)).2.regs = m.regs ∧
      (memRead m (a.val : Int)).1 =
        some ((memRead m (a.val : Int)).2.memory kbsrA)) := by
  constructor
  · intro hne
    rw [memRead_other m _ (by exact_mod_cast hne), memGet_in_range]
  · intro he
    have ha : a = kbsrA := Fin.ext (by rw [he]; rfl)
    subst ha
    rw [memRead_kbsr_unfold]
    dsimp only
    by_cases hc : (getChar m).1 = 0
    · simp only [hc, ne_eq, not_true_eq_false, if_false]
      refine ⟨fun hx => hx.elim, fun _ => ?_, ?_, ?_⟩
      · exact memWrite_memory_at (show MR_KBSR < 65536 by decide) 0
      · rw [memWrite_regs, getChar_regs]
      · exact memGet_in_range _ kbsrA
    · simp only [ne_eq, hc, not_false_eq_true, if_true]
      have h1 : (memWrite (memWrite (getChar m).2 ((MR_KBSR : Nat) : Int) 0x8000)
          ((MR_KBDR : Nat) : Int) ((getChar m).1 : Int)).memory kbsrA
          = ⟨0x8000, by decide⟩ := by
        rw [memWrite_memory_ne _ _ _ (by decide)]
        exact memWrite_memory_at (show MR_KBSR < 65536 by decide) 0x8000
      have h2 : (memWrite (memWrite (getChar m).2 ((MR_KBSR : Nat) : Int) 0x8000)
          ((MR_KBDR : Nat) : Int) ((getChar m).1 : Int)).memory kbdrA
          = toU16 ((getChar m).1 : Int) := by
        exact memWrite_memory_at (show MR_KBDR < 65536 by decide) _
      refine ⟨fun _ => ⟨h1, h2, fun hb => ?_⟩, fun h0 => h0.elim, ?_, ?_⟩
      · rw [h2, toU16_val]
        omega
      · rw [memWrite_regs, memWrite_regs, getChar_regs]
      · exact memGet_in_range _ kbsrA

/-- Witness for C6: reading address 5 is pure on a concrete machine, and a
KBSR read on a machine with pending input 65 latches 0x8000 and 65. -/
theorem C6_memRead_spec_witness :
    memRead ioMachine ((5 : U16).val : Int) = (some (ioMachine.memory 5), ioMachine) ∧
    (memRead ioMachine ((kbsrA : U16).val : Int)).2.memory kbdrA = toU16 65 := by
  constructor
  · exact (C6_memRead_spec ioMachine 5).1 (by decide)
  · exact ((((C6_memRead_spec ioMachine kbsrA).2 rfl).1 (by decide)).2).1

/-- `updateFlags` only writes COND. -/
theorem updateFlags_regs_of_ne (m : Machine) (r s : Fin 10) (h : s ≠ rCOND) :
    (updateFlags m r).regs s = m.regs s := by
  unfold updateFlags
  split_ifs <;> rw [setReg_regs_ne _ _ _ _ h]

/-- The value of a coerced store, as an integer. -/
theorem toU16_val_int (i : Int) : ((toU16 i).val : Int) = i % 65536 := by
  rw [toU16_val]
  omega

/-- Coercing, adding, and coercing again collapses to one coercion. -/
theorem toU16_shift (i s : Int) : toU16 (((toU16 i).val : Int) + s) = toU16 (i + s) := by
  apply Fin.ext
  rw [toU16_val_int, toU16_val, toU16_val]
  omega

/-- C7: an LEA fetched from address A stores (A + 1 + sext(off9)) mod 2^16
into DR — the PC value used is the address of the instruction following
the LEA, because PC is post-incremented at fetch — and then sets the
condition flags on DR. -/
theorem C7_lea_pc_semantics (m : Machine) (fuel : Nat) (w : U16)
    (hw : (memRead m ((m.regs rPC).val : Int)).1 = some w)
    (hop : w.val >>> 12 = 14) :
    ∃ m2, step fuel m = .next m2 ∧
      m2.regs (dstReg w.val) =
        toU16 ((((m.regs rPC).val : Int) + 1) + signExtend (w.val &&& 0x1ff) 9) ∧
      condMatches (m2.regs rCOND) (m2.regs (dstReg w.val)) := by
  rcases hmr : memRead m (((m.regs rPC).val : Nat) : Int) with ⟨o, m1⟩
  have ho : o = some w := by rw [← hw, hmr]
  have hregs1 : m1.regs = m.regs := by
    have : m1 = (memRead m (((m.regs rPC).val : Nat) : Int)).2 := by rw [hmr]
    rw [this, memRead_regs]
  have hstep : step fuel m =
      .next (loadEffectiveAddress
        (setReg m1 rPC (((m1.regs rPC).val : Int) + 1)) w.val) := by
    unfold step
    rw [hmr]
    dsimp only
    rw [ho]
    dsimp only [jsWord]
    rw [hop]
    norm_num
  refine ⟨_, hstep, ?_, ?_⟩
  · show (loadEffectiveAddress _ w.val).regs (dstReg w.val) = _
    unfold loadEffectiveAddress
    rw [updateFlags_regs_of_ne _ _ _ (dstReg_ne_rCOND w.val), setReg_regs_self]
    rw [setReg_regs_self, hregs1, toU16_shift]
  · exact updateFlags_spec _ _ (dstReg_ne_rCOND w.val)

/-- Witness for C7: LEA R1, #5 fetched from 0x3000 leaves
R1 = 0x3006. -/
theorem C7_lea_pc_semantics_witness :
    ∃ m2, step 1 leaMachine = .next m2 ∧
      m2.regs (dstReg (⟨0xE205, by decide⟩ : U16).val) =
        toU16 ((((leaMachine.regs rPC).val : Int) + 1) +
          signExtend ((⟨0xE205, by decide⟩ : U16).val &&& 0x1ff) 9) ∧
      condMatches (m2.regs rCOND) (m2.regs (dstReg (⟨0xE205, by decide⟩ : U16).val)) :=
  C7_lea_pc_semantics leaMachine 1 ⟨0xE205, by decide⟩ rfl (by decide)

/-- C1 (code-bug exhibit): with PC = 0 and the instruction LD R0, #-2
(0x21FE) at address 0, the effective address is 0 + 1 + (-2) = -1.  The
claim says the cell at (-1) mod 2^16 = 0xFFFF, which holds 5, is read;
the code instead indexes the Uint16Array at -1, gets undefined, and
stores 0 into R0 (setting ZRO). -/
theorem C1_unwrapped_address_bug :
    ∃ m2, step 1 c1Machine = .next m2 ∧
      m2.regs rR0 = ⟨0, by decide⟩ ∧
      m2.regs rCOND = ⟨2, by decide⟩ ∧
      (c1Machine.memory ⟨65535, by decide⟩).val = 5 ∧
      ((((c1Machine.regs rPC).val : Int) + 1 + signExtend 0x1FE 9) % 65536).toNat
        = 65535 := by
  refine ⟨_, rfl, ?_, ?_, rfl, by decide⟩
  · decide
  · decide

/-- Coercing a stored word is the identity. -/
theorem toU16_coe (u : U16) : toU16 ((u.val : Nat) : Int) = u := by
  apply Fin.ext
  rw [toU16_val]
  have := u.isLt
  omega

/-- C2 (code-bug exhibit): on the 3-byte image 30 00 AB the loader calls
readUInt16BE(2), which needs bytes 2 and 3 of a 3-byte buffer and throws,
while the claim says the trailing byte AB is ignored and loading succeeds
exactly as for the even prefix 30 00 (which does succeed, loading
nothing). -/
theorem C2_odd_image_throws :
    readImage [0x30, 0x00, 0xAB] zeroMachine = .error () ∧
    readImage [0x30, 0x00] zeroMachine = .ok zeroMachine := by
  constructor
  · rw [readImage]
    norm_num [readUInt16BE]
    rw [loadLoop]
    norm_num [readUInt16BE]
  · rw [readImage]
    norm_num [readUInt16BE]
    rw [loadLoop]
    norm_num

/-- Byte length of an encoded word list. -/
theorem encodeWords_length (ws : List U16) :
    (encodeWords ws).length = 2 * ws.length := by
  induction ws with
  | nil => rfl
  | cons w t ih => simp [encodeWords, encodeWord, ih]; ring

/-- Dropping the first two bytes shifts a big-endian read. -/
theorem readUInt16BE_cons2 (a b : Nat) (l : List Nat) (off : Nat) :
    readUInt16BE (a :: b :: l) (off + 2) = readUInt16BE l off := by
  unfold readUInt16BE
  have hlen : (a :: b :: l).length = l.length + 2 := by simp
  rw [hlen]
  by_cases hc : off + 2 ≤ l.length
  · rw [if_pos (by omega), if_pos hc]
    have e1 : off + 2 = (off + 1) + 1 := rfl
    have e2 : off + 2 + 1 = (off + 1 + 1) + 1 := rfl
    rw [e1, List.getD_cons_succ, List.getD_cons_succ]
    rw [show off + 1 + 1 + 1 = (off + 1) + 1 + 1 from rfl]
    rw [List.getD_cons_succ, List.getD_cons_succ]
  · rw [if_neg (by omega), if_neg hc]

/-- Reading the encoded word stream at even offsets recovers the words. -/
theorem readUInt16BE_encodeWords (ws : List U16) :
    ∀ (j : Nat), j < ws.length →
      readUInt16BE (encodeWords ws) (2*j) = .ok (ws.getD j 0).val := by
  induction ws with
  | nil => intro j h; simp at h
  | cons w t ih =>
    intro j hj
    have hcons : encodeWords (w :: t) = w.val / 256 :: w.val % 256 :: encodeWords t := by
      simp [encodeWords, encodeWord]
    cases j with
    | zero =>
      rw [hcons]
      unfold readUInt16BE
      rw [if_pos (by simp)]
      simp [List.getD]
      omega
    | succ j1 =>
      rw [hcons, show 2 * (j1 + 1) = 2 * j1 + 2 by ring, readUInt16BE_cons2]
      rw [ih j1 (by simpa using hj)]
      rfl

/-- The loader's copy loop on an encoded stream is `placeFrom`. -/
theorem loadLoop_encode (O : U16) (ws : List U16) :
    ∀ (n pos : Nat) (m : Machine), ws.length - pos = n →
      loadLoop (encodeWord O ++ encodeWords ws) O.val m pos =
        .ok (placeFrom m O.val ws pos n) := by
  have hlen : (encodeWord O ++ encodeWords ws).length = 2 + 2 * ws.length := by
    simp [encodeWord, encodeWords_length]
    try omega
  have hstream : encodeWord O ++ encodeWords ws
      = O.val / 256 :: O.val % 256 :: encodeWords ws := by
    simp [encodeWord]
  intro n
  induction n with
  | zero =>
    intro pos m h0
    rw [loadLoop]
    rw [dif_neg (by rw [hlen]; omega)]
    rfl
  | succ n ih =>
    intro pos m hn
    have hpos : pos < ws.length := by omega
    rw [loadLoop]
    rw [dif_pos (by rw [hlen]; omega)]
    have hread : readUInt16BE (encodeWord O ++ encodeWords ws) ((pos + 1) * 2)
        = .ok (ws.getD pos 0).val := by
      rw [hstream, show (pos + 1) * 2 = 2 * pos + 2 by ring, readUInt16BE_cons2]
      exact readUInt16BE_encodeWords ws pos hpos
    rw [hread]
    dsimp only
    simp only [placeFrom]
    exact ih (pos + 1) _ (by omega)

/-- Cell contents after `placeFrom`. -/
theorem placeFrom_memory (O : Nat) (ws : List U16) :
    ∀ (n pos : Nat) (m : Machine) (a : U16),
      (placeFrom m O ws pos n).memory a =
        if O + pos ≤ a.val ∧ a.val < O + pos + n then ws.getD (a.val - O) 0
        else m.memory a := by
  intro n
  induction n with
  | zero =>
    intro pos m a
    rw [if_neg (by omega)]
    rfl
  | succ n ih =>
    intro pos m a
    simp only [placeFrom]
    rw [ih]
    by_cases h1 : O + (pos + 1) ≤ a.val ∧ a.val < O + (pos + 1) + n
    · rw [if_pos h1, if_pos (by omega)]
    · rw [if_neg h1]
      by_cases h2 : a.val = O + pos
      · rw [if_pos (by omega)]
        have hblt : O + pos < 65536 := by rw [← h2]; exact a.isLt
        have ha : a = ⟨O + pos, hblt⟩ := Fin.ext h2
        have hcast : ((O : Nat) : Int) + ((pos : Nat) : Int)
            = ((O + pos : Nat) : Int) := by push_cast; ring
        rw [hcast, ha, memWrite_memory_at hblt, toU16_coe]
        rw [show (⟨O + pos, hblt⟩ : U16).val - O = pos by simp]
      · rw [if_neg (by omega)]
        apply memWrite_memory_ne
        intro hEq
        apply h2
        have : ((a.val : Nat) : Int) = ((O + pos : Nat) : Int) := by
          rw [hEq]; push_cast; ring
        exact_mod_cast this

/-- C3: loading a stream that encodes origin O followed by words w_0..w_k
into an all-zero memory succeeds and leaves M[O+i] = w_i for every i ≤ k
(for each such address of the 65536-word memory) and M[j] = 0 for every
address j outside [O, O+k]. -/
theorem C3_image_loader (O : U16) (ws : List U16) (k : Nat) (hk : ws.length = k + 1)
    (m0 : Machine) (hz : ∀ a : U16, m0.memory a = 0) :
    ∃ M, readImage (encodeWord O ++ encodeWords ws) m0 = .ok M ∧
      (∀ a : U16, O.val ≤ a.val → a.val ≤ O.val + k →
        M.memory a = ws.getD (a.val - O.val) 0) ∧
      (∀ a : U16, a.val < O.val ∨ O.val + k < a.val → M.memory a = 0) := by
  have hstream : encodeWord O ++ encodeWords ws
      = O.val / 256 :: O.val % 256 :: encodeWords ws := by
    simp [encodeWord]
  have hread0 : readUInt16BE (encodeWord O ++ encodeWords ws) 0 = .ok O.val := by
    rw [hstream]
    unfold readUInt16BE
    rw [if_pos (by simp)]
    simp [List.getD]
    omega
  rw [readImage, hread0]
  dsimp only
  rw [loadLoop_encode O ws ws.length 0 m0 (by omega)]
  refine ⟨_, rfl, ?_, ?_⟩
  · intro a h1 h2
    rw [placeFrom_memory]
    rw [if_pos ⟨by omega, by omega⟩]
  · intro a h
    rw [placeFrom_memory]
    rw [if_neg (by omega)]
    exact hz a

/-- Witness for C3: origin 0x3000 with the single word 0x1234. -/
theorem C3_image_loader_witness :
    ∃ M, readImage (encodeWord ⟨0x3000, by decide⟩ ++ encodeWords [⟨0x1234, by decide⟩])
        zeroMachine = .ok M ∧
      (∀ a : U16, (⟨0x3000, by decide⟩ : U16).val ≤ a.val →
        a.val ≤ (⟨0x3000, by decide⟩ : U16).val + 0 →
        M.memory a
          = [(⟨0x1234, by decide⟩ : U16)].getD (a.val - (⟨0x3000, by decide⟩ : U16).val) 0) ∧
      (∀ a : U16, a.val < (⟨0x3000, by decide⟩ : U16).val ∨
        (⟨0x3000, by decide⟩ : U16).val + 0 < a.val → M.memory a = 0) :=
  C3_image_loader ⟨0x3000, by decide⟩ [⟨0x1234, by decide⟩] 0 rfl zeroMachine (fun _ => rfl)

/-- `memAt` inside the address space reads the cell. -/
theorem memAt_lt {m : Machine} {a : Nat} (h : a < 65536) :
    memAt m a = (m.memory ⟨a, h⟩).val := dif_pos h

/-- `memGet` at a cast in-range address. -/
theorem memGet_eq_of_lt {m : Machine} {a : Nat} (h : a < 65536) :
    memGet m ((a : Nat) : Int) = some (m.memory ⟨a, h⟩) := by
  rw [memGet_natCast, dif_pos h]

/-- `memGet` past the end of the array is `undefined`. -/
theorem memGet_none_of_ge {m : Machine} {a : Nat} (h : ¬ a < 65536) :
    memGet m ((a : Nat) : Int) = none := by
  rw [memGet_natCast, dif_neg h]

/-- The PUTS scan with the least zero word at `z` returns exactly the
words at addresses addr..z-1 once the fuel exceeds their count. -/
theorem scanPuts_term (m : Machine) (z : Nat) (hzlt : z < 65536) (hz0 : memAt m z = 0) :
    ∀ n addr, z - addr = n → addr ≤ z →
      (∀ y, addr ≤ y → y < z → memAt m y ≠ 0) →
      ∀ fuel, n < fuel →
        scanPuts m fuel addr =
          some ((List.range (z - addr)).map (fun i => memAt m (addr + i))) := by
  intro n
  induction n with
  | zero =>
    intro addr hn hle _ fuel hf
    have haz : addr = z := by omega
    subst haz
    obtain ⟨f, rfl⟩ : ∃ f, fuel = f + 1 := ⟨fuel - 1, by omega⟩
    simp only [scanPuts]
    rw [memGet_eq_of_lt (show addr < 65536 by omega)]
    dsimp only
    rw [if_pos ((memAt_lt (show addr < 65536 by omega)) ▸ hz0)]
    rw [show addr - addr = 0 by omega]
    rfl
  | succ n ih =>
    intro addr hn hle hne fuel hf
    have hlt : addr < z := by omega
    have ha16 : addr < 65536 := by omega
    obtain ⟨f, rfl⟩ : ∃ f, fuel = f + 1 := ⟨fuel - 1, by omega⟩
    simp only [scanPuts]
    rw [memGet_eq_of_lt ha16]
    dsimp only
    rw [if_neg (by
      intro hEq
      apply hne addr le_rfl hlt
      rw [memAt_lt ha16]
      exact hEq)]
    rw [ih (addr + 1) (by omega) (by omega) (fun y h1 h2 => hne y (by omega) h2) f (by omega)]
    rw [Option.map_some']
    congr 1
    rw [show z - addr = (z - (addr + 1)) + 1 by omega, List.range_succ_eq_map]
    rw [List.map_cons, List.map_map]
    congr 1
    · rw [← memAt_lt ha16, Nat.add_zero]
    · apply List.map_congr_left
      intro i _
      show memAt m (addr + 1 + i) = memAt m (addr + (i + 1))
      congr 1
      omega

/-- With any zero word at or above `addr` the PUTS scan finishes. -/
theorem scanPuts_some_of_zero (m : Machine) (z : Nat) (hzlt : z < 65536)
    (hz0 : memAt m z = 0) :
    ∀ n addr, z - addr = n → addr ≤ z →
      ∀ fuel, n < fuel → ∃ buf, scanPuts m fuel addr = some buf := by
  intro n
  induction n with
  | zero =>
    intro addr hn hle fuel hf
    have haz : addr = z := by omega
    subst haz
    obtain ⟨f, rfl⟩ : ∃ f, fuel = f + 1 := ⟨fuel - 1, by omega⟩
    simp only [scanPuts]
    rw [memGet_eq_of_lt (show addr < 65536 by omega)]
    dsimp only
    rw [if_pos ((memAt_lt (show addr < 65536 by omega)) ▸ hz0)]
    exact ⟨[], rfl⟩
  | succ n ih =>
    intro addr hn hle fuel hf
    have ha16 : addr < 65536 := by omega
    obtain ⟨f, rfl⟩ : ∃ f, fuel = f + 1 := ⟨fuel - 1, by omega⟩
    simp only [scanPuts]
    rw [memGet_eq_of_lt ha16]
    dsimp only
    by_cases h0 : (m.memory ⟨addr, ha16⟩).val = 0
    · rw [if_pos h0]
      exact ⟨[], rfl⟩
    · rw [if_neg h0]
      obtain ⟨buf, hbuf⟩ := ih (addr + 1) (by omega) (by omega) f (by omega)
      rw [hbuf]
      exact ⟨_, rfl⟩

/-- Without a zero word anywhere at or above `addr` the PUTS scan never
finishes: no fuel suffices, because past the end of the array the read is
`undefined`, which the loop condition does not stop on. -/
theorem scanPuts_none (m : Machine) :
    ∀ (fuel addr : Nat), (∀ y, addr ≤ y → y < 65536 → memAt m y ≠ 0) →
      scanPuts m fuel addr = none := by
  intro fuel
  induction fuel with
  | zero => intro addr _; rfl
  | succ f ih =>
    intro addr h
    simp only [scanPuts]
    by_cases ha : addr < 65536
    · rw [memGet_eq_of_lt ha]
      dsimp only
      rw [if_neg (by
        intro hEq
        apply h addr le_rfl ha
        rw [memAt_lt ha]
        exact hEq)]
      rw [ih (addr + 1) (fun y h1 h2 => h y (by omega) h2)]
      rfl
    · rw [memGet_none_of_ge ha]
      dsimp only
      rw [ih (addr + 1) (fun y h1 h2 => absurd h2 (by omega))]
      rfl

/-- C10: the PUTS scan loop terminates precisely when some address in
[R0, 0xFFFF] holds a zero word — nothing else, in particular not the end
of the address space, stops it — and when z is the least such address it
scans exactly the words at R0..z-1. -/
theorem C10_puts_scan_termination (m : Machine) :
    ((∃ z, (m.regs rR0).val ≤ z ∧ z < 65536 ∧ memAt m z = 0) ↔
      (∃ fuel buf, scanPuts m fuel (m.regs rR0).val = some buf)) ∧
    (∀ z, (m.regs rR0).val ≤ z → z < 65536 → memAt m z = 0 →
      (∀ y, (m.regs rR0).val ≤ y → y < z → memAt m y ≠ 0) →
      ∀ fuel, z - (m.regs rR0).val < fuel →
        scanPuts m fuel (m.regs rR0).val =
          some ((List.range (z - (m.regs rR0).val)).map
            (fun i => memAt m ((m.regs rR0).val + i)))) := by
  constructor
  · constructor
    · rintro ⟨z, hz1, hz2, hz3⟩
      obtain ⟨buf, hbuf⟩ := scanPuts_some_of_zero m z hz2 hz3 _ (m.regs rR0).val rfl hz1
        (z - (m.regs rR0).val + 1) (by omega)
      exact ⟨_, buf, hbuf⟩
    · rintro ⟨fuel, buf, hbuf⟩
      by_contra hno
      push_neg at hno
      rw [scanPuts_none m fuel (m.regs rR0).val
        (fun y h1 h2 => hno y h1 h2)] at hbuf
      exact Option.noConfusion hbuf
  · intro z hz1 hz2 hz3 hleast fuel hfuel
    exact scanPuts_term m z hz2 hz3 _ (m.regs rR0).val rfl hz1 hleast fuel hfuel

/-- Witness for C10: scanning "Hi!" from 0x4000 with the zero at 0x4003. -/
theorem C10_puts_scan_termination_witness :
    scanPuts putsMachine 4 (putsMachine.regs rR0).val =
      some ((List.range (0x4003 - (putsMachine.regs rR0).val)).map
        (fun i => memAt putsMachine ((putsMachine.regs rR0).val + i))) :=
  (C10_puts_scan_termination putsMachine).2 0x4003 (by decide) (by decide) (by decide)
    (by
      intro y h1 h2
      have e : (putsMachine.regs rR0).val = 0x4000 := by decide
      rw [e] at h1
      interval_cases y <;> decide)
    4 (by decide)

/-- `setReg` leaves the running flag alone. -/
theorem setReg_running (m : Machine) (r : Fin 10) (v : Int) :
    (setReg m r v).running = m.running := rfl

/-- `getChar` leaves the running flag alone. -/
theorem getChar_running (m : Machine) : (getChar m).2.running = m.running := by
  unfold getChar
  cases m.input <;> rfl

/-- C9: with z the least zero word at or after R0 and enough fuel, the
PUTS trap appends to the host output exactly the low 8 bits of the words
at R0..z-1, in order. -/
theorem C9_puts_output (m : Machine) (instr : Nat) (hvec : instr &&& 0xFF = 0x22)
    (z : Nat) (hz1 : (m.regs rR0).val ≤ z) (hz2 : z < 65536) (hz3 : memAt m z = 0)
    (hleast : ∀ y, (m.regs rR0).val ≤ y → y < z → memAt m y ≠ 0)
    (fuel : Nat) (hfuel : z - (m.regs rR0).val < fuel) :
    trapHandler fuel m instr =
      some { m with output := m.output ++
        ((List.range (z - (m.regs rR0).val)).map
          (fun i => memAt m ((m.regs rR0).val + i) % 256)) } := by
  simp only [trapHandler, hvec]
  norm_num
  rw [scanPuts_term m z hz2 hz3 _ (m.regs rR0).val rfl hz1 hleast fuel hfuel]
  dsimp only
  unfold putBuf
  have hmm : ((List.range (z - (m.regs rR0).val)).map
      (fun i => memAt m ((m.regs rR0).val + i))).map (· % 256)
      = (List.range (z - (m.regs rR0).val)).map
        (fun i => memAt m ((m.regs rR0).val + i) % 256) := by
    rw [List.map_map]
    rfl
  rw [hmm]

/-- Witness for C9 on the "Hi!" machine: exactly the bytes 72 105 33
("Hi!") are emitted, in order. -/
theorem C9_puts_output_witness :
    trapHandler 4 putsMachine 0xF022 =
      some { putsMachine with output := [72, 105, 33] } := by
  rw [C9_puts_output putsMachine 0xF022 (by decide) 0x4003 (by decide) (by decide) (by decide)
    (by
      intro y h1 h2
      have e : (putsMachine.regs rR0).val = 0x4000 := by decide
      rw [e] at h1
      interval_cases y <;> decide)
    4 (by decide)]
  have hlist : putsMachine.output ++
      ((List.range (0x4003 - (putsMachine.regs rR0).val)).map
        (fun i => memAt putsMachine ((putsMachine.regs rR0).val + i) % 256))
      = [72, 105, 33] := by decide
  rw [hlist]

/-- C8: a trap with vector 0x20..0x25 that completes leaves R1..R7, PC and
COND (every register other than R0) unchanged — in particular no return
address is saved to R7 and PC is untouched, so control passes implicitly
to the instruction after the TRAP — leaves all of memory unchanged, leaves
the running flag unchanged unless the vector is HALT (0x25), and leaves R0
unchanged unless the vector is GETC (0x20) or IN (0x23). -/
theorem C8_trap_frame (fuel : Nat) (m m2 : Machine) (instr : Nat)
    (hvec : instr &&& 0xFF ∈ ([0x20, 0x21, 0x22, 0x23, 0x24, 0x25] : List Nat))
    (h : trapHandler fuel m instr = some m2) :
    (∀ r : Fin 10, r ≠ rR0 → m2.regs r = m.regs r) ∧
    m2.memory = m.memory ∧
    (instr &&& 0xFF ≠ 0x25 → m2.running = m.running) ∧
    (instr &&& 0xFF ≠ 0x20 → instr &&& 0xFF ≠ 0x23 → m2.regs rR0 = m.regs rR0) := by
  clear hvec
  simp only [trapHandler] at h
  by_cases v20 : instr &&& 0xFF = 0x20
  · rw [if_pos v20] at h
    rcases hgc : getChar m with ⟨c, m1⟩
    rw [hgc] at h
    dsimp only at h
    injection h with h2
    subst h2
    have hm1 : m1 = (getChar m).2 := by rw [hgc]
    refine ⟨fun r hr => ?_, ?_, fun _ => ?_, fun h1 _ => absurd v20 h1⟩
    · rw [setReg_regs_ne _ _ _ _ hr, hm1, getChar_regs]
    · rw [setReg_memory, hm1, getChar_memory]
    · rw [setReg_running, hm1, getChar_running]
  · rw [if_neg v20] at h
    by_cases v21 : instr &&& 0xFF = 0x21
    · rw [if_pos v21] at h
      injection h with h2
      subst h2
      exact ⟨fun r hr => rfl, rfl, fun _ => rfl, fun _ _ => rfl⟩
    · rw [if_neg v21] at h
      by_cases v22 : instr &&& 0xFF = 0x22
      · rw [if_pos v22] at h
        rcases hsc : scanPuts m fuel (m.regs rR0).val with _ | buf <;> rw [hsc] at h
        · dsimp only at h
          exact Option.noConfusion h
        · dsimp only at h
          injection h with h2
          subst h2
          exact ⟨fun r hr => rfl, rfl, fun _ => rfl, fun _ _ => rfl⟩
      · rw [if_neg v22] at h
        by_cases v23 : instr &&& 0xFF = 0x23
        · rw [if_pos v23] at h
          rcases hgc : getChar (consoleLog m inPrompt) with ⟨c, m1⟩
          rw [hgc] at h
          dsimp only at h
          injection h with h2
          subst h2
          have hm1 : m1 = (getChar (consoleLog m inPrompt)).2 := by rw [hgc]
          refine ⟨fun r hr => ?_, ?_, fun _ => ?_, fun _ h2' => absurd v23 h2'⟩
          · rw [setReg_regs_ne _ _ _ _ hr, hm1, getChar_regs]
            rfl
          · rw [setReg_memory, hm1, getChar_memory]
            rfl
          · rw [setReg_running, hm1, getChar_running]
            rfl
        · rw [if_neg v23] at h
          by_cases v24 : instr &&& 0xFF = 0x24
          · rw [if_pos v24] at h
            rcases hsc : scanPutsp m fuel (m.regs rR0).val with _ | buf <;> rw [hsc] at h
            · dsimp only at h
              exact Option.noConfusion h
            · dsimp only at h
              injection h with h2
              subst h2
              exact ⟨fun r hr => rfl, rfl, fun _ => rfl, fun _ _ => rfl⟩
          · rw [if_neg v24] at h
            by_cases v25 : instr &&& 0xFF = 0x25
            · rw [if_pos v25] at h
              injection h with h2
              subst h2
              exact ⟨fun r hr => rfl, rfl, fun h1 => absurd v25 h1, fun _ _ => rfl⟩
            · rw [if_neg v25] at h
              injection h with h2
              subst h2
              exact ⟨fun r hr => rfl, rfl, fun _ => rfl, fun _ _ => rfl⟩

/-- Witness for C8 at the HALT trap on a concrete machine. -/
theorem C8_trap_frame_witness :
    (∀ r : Fin 10, r ≠ rR0 →
      ({ consoleLog putsMachine haltMsg with running := false } : Machine).regs r
        = putsMachine.regs r) ∧
    ({ consoleLog putsMachine haltMsg with running := false } : Machine).memory
      = putsMachine.memory ∧
    ((0xF025 : Nat) &&& 0xFF ≠ 0x25 →
      ({ consoleLog putsMachine haltMsg with running := false } : Machine).running
        = putsMachine.running) ∧
    ((0xF025 : Nat) &&& 0xFF ≠ 0x20 → (0xF025 : Nat) &&& 0xFF ≠ 0x23 →
      ({ consoleLog putsMachine haltMsg with running := false } : Machine).regs rR0
        = putsMachine.regs rR0) :=
  C8_trap_frame 1 putsMachine _ 0xF025 (by decide) rfl

end LC3